import Mathlib

/-!
# Verification of the rustle guess engine

A shallow embedding of the core game logic of `src/main.rs` (the `GameState`
struct and its methods), with theorems checking the specified properties of
the guess-evaluation state machine.

Strings are modelled as lists of characters (`List Char`); Rust `Vec` becomes
`List`; mutation becomes explicit state passing (`GameState → GameState`);
`Result<bool, GameError>` becomes `Except GameError Bool`; a panicking
`.unwrap()` becomes `Option` propagation (`none` models the panic).
-/

deriving instance DecidableEq for Except

namespace Rustle

/-- Per-letter feedback marks, from `enum HitInfo` in the source.
`None` is only used by the renderer for not-yet-submitted rows. -/
inductive HitInfo where
  | Hit
  | Contains
  | Miss
  | None
  deriving DecidableEq, Repr

/-- Rejection reasons, from `enum GameError` in the source. -/
inductive GameError where
  | WrongLength
  | InvalidWord
  deriving DecidableEq, Repr

/-- The engine state, from `struct GameState` in the source. -/
structure GameState where
  valid_words : List (List Char)
  guesses : List (List Char)
  current_guess : List Char
  word : List Char
  max_tries : Nat
  last_error : Option GameError
  deriving DecidableEq, Repr

/-- `GameState::new`: fresh state with empty history and buffer, no error,
`max_tries = 6`. -/
def GameState.new (word : List Char) (valid_words : List (List Char)) : GameState :=
  { valid_words := valid_words
    guesses := []
    current_guess := []
    word := word
    max_tries := 6
    last_error := none }

/-- `GameState::won`: true iff the last history entry equals the target word. -/
def GameState.won (s : GameState) : Bool :=
  match s.guesses.getLast? with
  | some last_guess => last_guess == s.word
  | none => false

/-- `GameState::guess`: validate length, then membership in the word list;
on success push the guess onto the history and report `won()`.  The returned
pair is (state after the call, returned `Result`). -/
def GameState.guess (s : GameState) (g : List Char) : GameState × Except GameError Bool :=
  if g.length ≠ s.word.length then
    (s, Except.error GameError.WrongLength)
  else if !(s.valid_words.contains g) then
    (s, Except.error GameError.InvalidWord)
  else
    let s' : GameState := { s with guesses := s.guesses ++ [g] }
    (s', Except.ok s'.won)

/-- One iteration of the loop body of `GameState::get_guess_hits`: compare the
guess character `c` at position `i` with `word.chars().nth(i).unwrap()`
(`none` models the panic when `i` is past the end of the word). -/
def hitFor (word : List Char) (i : Nat) (c : Char) : Option HitInfo :=
  match word[i]? with
  | none => none
  | some wc =>
    some (if c == wc then HitInfo.Hit
          else if word.contains c then HitInfo.Contains
          else HitInfo.Miss)

/-- The loop of `GameState::get_guess_hits`, iterating over the guess
characters with their indices. -/
def hitsFrom (word : List Char) : List Char → Nat → Option (List HitInfo)
  | [], _ => some []
  | c :: rest, i =>
    match hitFor word i c with
    | none => none
    | some h =>
      match hitsFrom word rest (i + 1) with
      | none => none
      | some t => some (h :: t)

/-- `GameState::get_guess_hits`: feedback for the history entry at
`guess_position`; `self.guesses.get(guess_position).unwrap()` panics on an
out-of-range index, modelled as `none`. -/
def GameState.get_guess_hits (s : GameState) (guess_position : Nat) :
    Option (List HitInfo) :=
  match s.guesses[guess_position]? with
  | none => none
  | some g => hitsFrom s.word g 0

/-- `GameState::set_last_error`. -/
def GameState.set_last_error (s : GameState) (e : GameError) : GameState :=
  { s with last_error := some e }

/-- `GameState::reset_error`. -/
def GameState.reset_error (s : GameState) : GameState :=
  { s with last_error := none }

/-- `GameState::back`: pop the last buffer character if the buffer is
non-empty. -/
def GameState.back (s : GameState) : GameState :=
  if s.current_guess.length > 0 then
    { s with current_guess := s.current_guess.dropLast }
  else s

/-- `GameState::confirm`: submit the current buffer through `guess`, record or
clear `last_error` according to the outcome, and clear the buffer
unconditionally. -/
def GameState.confirm (s : GameState) : GameState :=
  let r := s.guess s.current_guess
  let s2 :=
    match r.2 with
    | Except.ok _ => r.1.reset_error
    | Except.error e => r.1.set_last_error e
  { s2 with current_guess := [] }

/-- `GameState::add_char`: append `c` to the buffer only while the buffer is
shorter than the target word. -/
def GameState.add_char (s : GameState) (c : Char) : GameState :=
  if s.current_guess.length < s.word.length then
    { s with current_guess := s.current_guess ++ [c] }
  else s

/-- The engine-facing input events the driving loop can issue
(`Key::Char`, `Key::Backspace`, and the newline that triggers `confirm`). -/
inductive Op where
  | addChar (c : Char)
  | back
  | confirm
  deriving Repr

/-- Apply one input event to the state. -/
def applyOp (s : GameState) : Op → GameState
  | Op.addChar c => s.add_char c
  | Op.back => s.back
  | Op.confirm => s.confirm

/-- Run a sequence of input events. -/
def runOps (s : GameState) (ops : List Op) : GameState :=
  List.foldl applyOp s ops

/-- The specified per-position feedback rule: `Hit` iff the guess character
equals the target character at that position, otherwise `Contains` iff the
target contains the guess character anywhere, otherwise `Miss`. -/
def specMark (word : List Char) (wc c : Char) : HitInfo :=
  if c == wc then HitInfo.Hit
  else if word.contains c then HitInfo.Contains
  else HitInfo.Miss

/-- Concrete state from the spec scenario and the source's own test
`test_get_guess_hits`: target "hello", word set {"hello","jolly"},
history ["jolly"]. -/
def helloJolly : GameState :=
  { valid_words := ["hello".toList, "jolly".toList]
    guesses := ["jolly".toList]
    current_guess := []
    word := "hello".toList
    max_tries := 6
    last_error := none }

/-- Concrete state that has just won: target "hello", last entry "hello". -/
def wonState : GameState :=
  { helloJolly with guesses := ["jolly".toList, "hello".toList] }

/-- Concrete state whose edit buffer "hell" is shorter than the target
"hello". -/
def shortBuf : GameState :=
  { valid_words := ["hello".toList]
    guesses := []
    current_guess := "hell".toList
    word := "hello".toList
    max_tries := 6
    last_error := none }

/-- Concrete state whose edit buffer already has the target's length. -/
def fullBuf : GameState :=
  { valid_words := []
    guesses := []
    current_guess := "ab".toList
    word := "ab".toList
    max_tries := 6
    last_error := none }

/-- Concrete state with `max_tries = 6` submissions already in the history. -/
def sixDone : GameState :=
  { valid_words := [['a', 'b']]
    guesses := [['x', 'x'], ['x', 'x'], ['x', 'x'], ['x', 'x'], ['x', 'x'], ['x', 'x']]
    current_guess := []
    word := ['a', 'b']
    max_tries := 6
    last_error := none }

/-! ## Helper lemmas about the embedded operations -/

/-- If the target has a character at position `i`, one loop iteration of
`get_guess_hits` yields exactly the specified mark. -/
theorem hitFor_eq (word : List Char) (i : Nat) (c wc : Char)
    (h : word[i]? = some wc) : hitFor word i c = some (specMark word wc c) := by
  simp [hitFor, h, specMark]

/-- The feedback loop, started at offset `i` with enough target characters
left, returns the specified marks for the guess zipped with the remaining
target characters. -/
theorem hitsFrom_eq_map_zip (word : List Char) :
    ∀ (g : List Char) (i : Nat), g.length + i ≤ word.length →
      hitsFrom word g i =
        some ((g.zip (word.drop i)).map fun p => specMark word p.2 p.1) := by
  intro g
  induction g with
  | nil => intro i _; simp [hitsFrom]
  | cons c rest ih =>
    intro i hle
    have hi : i < word.length := by simp at hle; omega
    have hdrop : word.drop i = word[i] :: word.drop (i + 1) :=
      List.drop_eq_getElem_cons hi
    have h1 : hitFor word i c = some (specMark word word[i] c) :=
      hitFor_eq word i c word[i] (List.getElem?_eq_getElem hi)
    have h2 := ih (i + 1) (by simp at hle ⊢; omega)
    show (match hitFor word i c with
          | none => none
          | some h =>
            match hitsFrom word rest (i + 1) with
            | none => none
            | some t => some (h :: t)) = _
    rw [h1, h2, hdrop, List.zip_cons_cons, List.map_cons]

/-- A length- and membership-valid guess is accepted: the state gains the
guess at the end of the history and the result reports equality with the
target. -/
theorem guess_success (s : GameState) (g : List Char)
    (hlen : g.length = s.word.length) (hmem : s.valid_words.contains g = true) :
    s.guess g = ({ s with guesses := s.guesses ++ [g] }, Except.ok (g == s.word)) := by
  have hwon : ({ s with guesses := s.guesses ++ [g] } : GameState).won = (g == s.word) := by
    simp [GameState.won, List.getLast?_concat]
  have hmem' : g ∈ s.valid_words := List.mem_of_elem_eq_true hmem
  simp [GameState.guess, hlen, hmem', hwon]

/-- `guess` either leaves the state untouched or appends exactly the guess,
and appends only when the length check passed. -/
theorem guess_cases (s : GameState) (g : List Char) :
    (s.guess g).1 = s ∨
    ((s.guess g).1 = { s with guesses := s.guesses ++ [g] } ∧
      g.length = s.word.length) := by
  by_cases h1 : g.length = s.word.length
  · by_cases h2 : s.valid_words.contains g
    · right
      exact ⟨by rw [guess_success s g h1 h2], h1⟩
    · left
      simp [GameState.guess, h1] at h2 ⊢
      simp [h2]
  · left
    simp [GameState.guess, h1]

/-- `confirm` clears the edit buffer unconditionally. -/
theorem confirm_current_guess (s : GameState) : (s.confirm).current_guess = [] := rfl

/-- The history after `confirm` is the history after the inner `guess` call. -/
theorem confirm_guesses (s : GameState) :
    (s.confirm).guesses = (s.guess s.current_guess).1.guesses := by
  simp only [GameState.confirm]
  cases h : (s.guess s.current_guess).2 <;>
    simp [h, GameState.reset_error, GameState.set_last_error]

/-- `guess` never changes the target word. -/
theorem guess_word (s : GameState) (g : List Char) : (s.guess g).1.word = s.word := by
  unfold GameState.guess
  split
  · rfl
  · split <;> rfl

/-- `confirm` never changes the target word. -/
theorem confirm_word (s : GameState) : (s.confirm).word = s.word := by
  simp only [GameState.confirm]
  cases h : (s.guess s.current_guess).2 <;>
    simp [h, GameState.reset_error, GameState.set_last_error, guess_word]

/-- No input event changes the target word. -/
theorem applyOp_word (s : GameState) (op : Op) : (applyOp s op).word = s.word := by
  cases op with
  | addChar c =>
    show (s.add_char c).word = s.word
    unfold GameState.add_char
    split <;> rfl
  | back =>
    show (s.back).word = s.word
    unfold GameState.back
    split <;> rfl
  | confirm => exact confirm_word s

/-- No sequence of input events changes the target word. -/
theorem runOps_word (s : GameState) (ops : List Op) : (runOps s ops).word = s.word := by
  induction ops generalizing s with
  | nil => rfl
  | cons op rest ih =>
    show (runOps (applyOp s op) rest).word = s.word
    rw [ih, applyOp_word]

/-- Each input event leaves the history unchanged or appends exactly one
entry, whose length equals the target's length. -/
theorem applyOp_guesses (s : GameState) (op : Op) :
    (applyOp s op).guesses = s.guesses ∨
    ∃ g, (applyOp s op).guesses = s.guesses ++ [g] ∧ g.length = s.word.length := by
  cases op with
  | addChar c =>
    left
    show (s.add_char c).guesses = s.guesses
    unfold GameState.add_char
    split <;> rfl
  | back =>
    left
    show (s.back).guesses = s.guesses
    unfold GameState.back
    split <;> rfl
  | confirm =>
    show (s.confirm).guesses = s.guesses ∨
      ∃ g, (s.confirm).guesses = s.guesses ++ [g] ∧ g.length = s.word.length
    rw [confirm_guesses]
    rcases guess_cases s s.current_guess with h | ⟨h, hlen⟩
    · left
      rw [h]
    · right
      exact ⟨s.current_guess, by rw [h], hlen⟩

/-- One input event preserves the buffer-length bound. -/
theorem applyOp_buflen (s : GameState) (op : Op)
    (h : s.current_guess.length ≤ s.word.length) :
    (applyOp s op).current_guess.length ≤ (applyOp s op).word.length := by
  rw [applyOp_word]
  cases op with
  | addChar c =>
    show (s.add_char c).current_guess.length ≤ s.word.length
    unfold GameState.add_char
    split
    next h1 => simp only [List.length_append, List.length_cons, List.length_nil]; omega
    next => exact h
  | back =>
    show (s.back).current_guess.length ≤ s.word.length
    unfold GameState.back
    split
    next => simp only [List.length_dropLast]; omega
    next => exact h
  | confirm =>
    show (s.confirm).current_guess.length ≤ s.word.length
    rw [confirm_current_guess]
    simp

/-- Any event sequence preserves the buffer-length bound. -/
theorem runOps_buflen (s : GameState) (ops : List Op)
    (h : s.current_guess.length ≤ s.word.length) :
    (runOps s ops).current_guess.length ≤ (runOps s ops).word.length := by
  induction ops generalizing s with
  | nil => exact h
  | cons op rest ih => exact ih (applyOp s op) (applyOp_buflen s op h)

/-- One input event preserves the all-entries-have-target-length invariant. -/
theorem applyOp_hist_len (s : GameState) (op : Op)
    (h : ∀ g ∈ s.guesses, g.length = s.word.length) :
    ∀ g ∈ (applyOp s op).guesses, g.length = (applyOp s op).word.length := by
  rw [applyOp_word]
  rcases applyOp_guesses s op with h1 | ⟨g', h1, h2⟩ <;> rw [h1]
  · exact h
  · intro g hg
    rcases List.mem_append.mp hg with hg | hg
    · exact h g hg
    · rw [List.mem_singleton.mp hg]
      exact h2

/-- Any event sequence preserves the all-entries-have-target-length
invariant. -/
theorem runOps_hist_len (s : GameState) (ops : List Op)
    (h : ∀ g ∈ s.guesses, g.length = s.word.length) :
    ∀ g ∈ (runOps s ops).guesses, g.length = (runOps s ops).word.length := by
  induction ops generalizing s with
  | nil => exact h
  | cons op rest ih => exact ih (applyOp s op) (applyOp_hist_len s op h)

/-! ## Claim theorems -/

/-- C1: in every state whose history entries all have the target's length L,
`get_guess_hits i` for `i` in range returns exactly L marks in guess-character
order, position `j` getting `Hit` iff `guess[j] = Target[j]`, otherwise
`Contains` iff the target contains `guess[j]` anywhere (no multiplicity
accounting), otherwise `Miss`; for `i` out of range the history lookup fails
and the call returns no feedback. -/
theorem C1_feedback_rule (s : GameState)
    (hlen : ∀ g ∈ s.guesses, g.length = s.word.length) :
    (∀ i, (hi : i < s.guesses.length) →
      ∃ hits, s.get_guess_hits i = some hits ∧
        hits.length = s.word.length ∧
        hits = (s.guesses[i].zip s.word).map fun p => specMark s.word p.2 p.1) ∧
    (∀ i, s.guesses.length ≤ i → s.get_guess_hits i = none) := by
  constructor
  · intro i hi
    have hsome : s.guesses[i]? = some s.guesses[i] := List.getElem?_eq_getElem hi
    have hmem : s.guesses[i] ∈ s.guesses := List.getElem_mem hi
    have hlen' : s.guesses[i].length = s.word.length := hlen _ hmem
    have hz := hitsFrom_eq_map_zip s.word s.guesses[i] 0 (by omega)
    rw [List.drop_zero] at hz
    refine ⟨_, ?_, ?_, rfl⟩
    · simp only [GameState.get_guess_hits, hsome]
      exact hz
    · simp [List.length_zip, hlen']
  · intro i hge
    simp [GameState.get_guess_hits, List.getElem?_eq_none hge]

/-- C1 witness: target "hello" with history ["jolly"]; feedback row 0 is
[Miss, Contains, Hit, Hit, Miss] and row 1 is out of range. -/
theorem C1_feedback_rule_witness :
    helloJolly.get_guess_hits 0 =
      some [HitInfo.Miss, HitInfo.Contains, HitInfo.Hit, HitInfo.Hit, HitInfo.Miss] ∧
    helloJolly.get_guess_hits 1 = none := by
  have h := C1_feedback_rule helloJolly (by decide)
  obtain ⟨hits, h1, h2, h3⟩ := h.1 0 (by decide)
  refine ⟨?_, h.2 1 (by decide)⟩
  rw [h1, h3]
  decide

/-- C2: a guess of the target's length that is in the word list is accepted:
it is appended as the new last history entry, the result reports
`won = (g == Target)` by exact string equality, and submitting it through
`confirm` leaves `last_error` cleared to `none`. -/
theorem C2_submit_valid (s : GameState) (g : List Char)
    (hlen : g.length = s.word.length)
    (hmem : s.valid_words.contains g = true) :
    (s.guess g).1.guesses = s.guesses ++ [g] ∧
    (s.guess g).2 = Except.ok (g == s.word) ∧
    (s.current_guess = g →
      (s.confirm).guesses = s.guesses ++ [g] ∧ (s.confirm).last_error = none) := by
  have hg := guess_success s g hlen hmem
  refine ⟨by rw [hg], by rw [hg], fun hcg => ⟨?_, ?_⟩⟩
  · rw [confirm_guesses, hcg, hg]
  · simp only [GameState.confirm]
    rw [hcg, hg]
    simp [GameState.reset_error]

/-- C2 witness: from a fresh game with target "hello" and word set
{"hello","jolly"}, submitting "jolly" succeeds with history ["jolly"] and
result `won = false`. -/
theorem C2_submit_valid_witness :
    ((GameState.new "hello".toList ["hello".toList, "jolly".toList]).guess
        "jolly".toList).1.guesses = ["jolly".toList] ∧
    ((GameState.new "hello".toList ["hello".toList, "jolly".toList]).guess
        "jolly".toList).2 = Except.ok false := by
  have h := C2_submit_valid (GameState.new "hello".toList ["hello".toList, "jolly".toList])
      "jolly".toList (by decide) (by decide)
  exact ⟨h.1.trans (by decide), h.2.1.trans (by decide)⟩

/-- C3: validation order with the first failure winning: a guess of the wrong
length is rejected with `WrongLength` (regardless of word-list membership),
and a guess of the right length not in the word list is rejected with
`InvalidWord`; in both cases the state, and with it the history, is entirely
unchanged. -/
theorem C3_validation_order (s : GameState) (g : List Char) :
    (g.length ≠ s.word.length → s.guess g = (s, Except.error GameError.WrongLength)) ∧
    (g.length = s.word.length → s.valid_words.contains g = false →
      s.guess g = (s, Except.error GameError.InvalidWord)) := by
  constructor
  · intro h
    simp [GameState.guess, h]
  · intro h1 h2
    have h2' : ¬ g ∈ s.valid_words := by
      intro hm
      have h3 : s.valid_words.contains g = true := List.elem_eq_true_of_mem hm
      rw [h3] at h2
      simp at h2
    simp [GameState.guess, h1, h2']

/-- C3 witness: with target "hello" and word set {"hello"}, the guess "hell"
fails with `WrongLength` (it is also not in the word set, but the length check
wins) and "jello" fails with `InvalidWord`; the state is unchanged. -/
theorem C3_validation_order_witness :
    (GameState.new "hello".toList ["hello".toList]).guess "hell".toList =
      (GameState.new "hello".toList ["hello".toList], Except.error GameError.WrongLength) ∧
    (GameState.new "hello".toList ["hello".toList]).guess "jello".toList =
      (GameState.new "hello".toList ["hello".toList], Except.error GameError.InvalidWord) :=
  ⟨(C3_validation_order (GameState.new "hello".toList ["hello".toList]) "hell".toList).1
      (by decide),
   (C3_validation_order (GameState.new "hello".toList ["hello".toList]) "jello".toList).2
      (by decide) (by decide)⟩

/-- C4: `won` is a pure query over the state: it is true exactly when the
history is non-empty and its last entry equals the target by exact string
equality, and it is false on an empty history. -/
theorem C4_won_characterization (s : GameState) :
    (s.won = true ↔ s.guesses ≠ [] ∧ s.guesses.getLast? = some s.word) ∧
    (s.guesses = [] → s.won = false) := by
  constructor
  · unfold GameState.won
    cases hg : s.guesses.getLast? with
    | none => simp [hg]
    | some lg =>
      have hne : s.guesses ≠ [] := by
        intro h0
        rw [h0] at hg
        simp at hg
      simp [hg, hne]
  · intro h
    simp [GameState.won, h]

/-- C4 witness: a state whose last history entry is the target has won; a
fresh state with empty history has not. -/
theorem C4_won_characterization_witness :
    wonState.won = true ∧ (GameState.new "hello".toList []).won = false :=
  ⟨(C4_won_characterization wonState).1.mpr ⟨by decide, by decide⟩,
   (C4_won_characterization (GameState.new "hello".toList [])).2 (by decide)⟩

/-- C5: `last_error` is set to the rejection reason by a rejected `confirm`,
cleared to `none` by an accepted `confirm`, and untouched by `add_char` and
`back`. -/
theorem C5_last_error_discipline (s : GameState) (c : Char) :
    (∀ e, (s.guess s.current_guess).2 = Except.error e →
      (s.confirm).last_error = some e) ∧
    (∀ b, (s.guess s.current_guess).2 = Except.ok b →
      (s.confirm).last_error = none) ∧
    (s.add_char c).last_error = s.last_error ∧
    (s.back).last_error = s.last_error := by
  refine ⟨fun e he => ?_, fun b hb => ?_, ?_, ?_⟩
  · simp only [GameState.confirm]
    rw [he]
    simp [GameState.set_last_error]
  · simp only [GameState.confirm]
    rw [hb]
    simp [GameState.reset_error]
  · unfold GameState.add_char
    split <;> rfl
  · unfold GameState.back
    split <;> rfl

/-- C5 witness: confirming the too-short buffer "hell" against target "hello"
records `WrongLength`, and an edit leaves `last_error` untouched. -/
theorem C5_last_error_discipline_witness :
    (shortBuf.confirm).last_error = some GameError.WrongLength ∧
    (shortBuf.add_char 'x').last_error = none := by
  have h := C5_last_error_discipline shortBuf 'x'
  exact ⟨h.1 GameError.WrongLength (by decide), h.2.2.1⟩

/-- C6: after every `confirm` the edit buffer is empty, unconditionally —
accepted or rejected, winning or not. -/
theorem C6_buffer_always_cleared (s : GameState) : (s.confirm).current_guess = [] :=
  confirm_current_guess s

/-- C7: under any sequence of input events from a fresh state, the edit
buffer never exceeds the target's length; `add_char` on a full buffer is a
silent no-op and `back` on an empty buffer is a no-op. -/
theorem C7_buffer_bound :
    (∀ (w : List Char) (vw : List (List Char)) (ops : List Op),
      (runOps (GameState.new w vw) ops).current_guess.length ≤ w.length) ∧
    (∀ (s : GameState) (c : Char),
      s.current_guess.length = s.word.length → s.add_char c = s) ∧
    (∀ s : GameState, s.current_guess = [] → s.back = s) := by
  refine ⟨fun w vw ops => ?_, fun s c h => ?_, fun s h => ?_⟩
  · have h1 := runOps_buflen (GameState.new w vw) ops (by simp [GameState.new])
    rw [runOps_word] at h1
    exact h1
  · unfold GameState.add_char
    simp [h]
  · unfold GameState.back
    simp [h]

/-- C7 witness: three keypresses against the length-2 target "ab" leave a
buffer of length at most 2; a full buffer ignores a fourth character; `back`
on a fresh state is a no-op. -/
theorem C7_buffer_bound_witness :
    (runOps (GameState.new "ab".toList [])
        [Op.addChar 'x', Op.addChar 'y', Op.addChar 'z']).current_guess.length ≤
      "ab".toList.length ∧
    fullBuf.add_char 'q' = fullBuf ∧
    (GameState.new "ab".toList []).back = GameState.new "ab".toList [] :=
  ⟨C7_buffer_bound.1 "ab".toList [] [Op.addChar 'x', Op.addChar 'y', Op.addChar 'z'],
   C7_buffer_bound.2.1 fullBuf 'q' (by decide),
   C7_buffer_bound.2.2 (GameState.new "ab".toList []) (by decide)⟩

/-- C8: the history is append-only — every input event leaves it unchanged or
appends exactly one entry at the end — and from a fresh state every entry in
the history has exactly the target's length.  The queries `won` and
`get_guess_hits` take no state and return none, so they cannot touch the
history. -/
theorem C8_history_append_only :
    (∀ (s : GameState) (op : Op),
      (applyOp s op).guesses = s.guesses ∨
      ∃ g, (applyOp s op).guesses = s.guesses ++ [g] ∧ g.length = s.word.length) ∧
    (∀ (w : List Char) (vw : List (List Char)) (ops : List Op),
      ∀ g ∈ (runOps (GameState.new w vw) ops).guesses, g.length = w.length) := by
  refine ⟨fun s op => applyOp_guesses s op, fun w vw ops => ?_⟩
  have h := runOps_hist_len (GameState.new w vw) ops (by simp [GameState.new])
  rw [runOps_word] at h
  exact h

/-- C8 witness: typing "hello" and confirming against target "hello" puts
"hello" in the history, and the theorem reports its length equals the
target's. -/
theorem C8_history_append_only_witness :
    "hello".toList ∈ (runOps (GameState.new "hello".toList ["hello".toList])
      [Op.addChar 'h', Op.addChar 'e', Op.addChar 'l', Op.addChar 'l', Op.addChar 'o',
       Op.confirm]).guesses ∧
    "hello".toList.length = "hello".toList.length :=
  ⟨by decide,
   C8_history_append_only.2 "hello".toList ["hello".toList]
     [Op.addChar 'h', Op.addChar 'e', Op.addChar 'l', Op.addChar 'l', Op.addChar 'o',
      Op.confirm] "hello".toList (by decide)⟩

/-- C9: the engine itself does not enforce `max_tries`: even with
`max_tries ≤ guesses.length`, a guess of the target's length that is in the
word list is still accepted and appended, growing the history further. -/
theorem C9_no_max_tries_gate (s : GameState) (g : List Char)
    (hfull : s.max_tries ≤ s.guesses.length)
    (hlen : g.length = s.word.length)
    (hmem : s.valid_words.contains g = true) :
    (s.guess g).1.guesses = s.guesses ++ [g] ∧
    (s.guess g).2 = Except.ok (g == s.word) ∧
    s.max_tries < (s.guess g).1.guesses.length := by
  have hg := guess_success s g hlen hmem
  refine ⟨by rw [hg], by rw [hg], ?_⟩
  rw [hg]
  simp only [List.length_append, List.length_cons, List.length_nil]
  omega

/-- C9 witness: a state with six submissions already recorded still accepts a
seventh valid guess. -/
theorem C9_no_max_tries_gate_witness :
    sixDone.max_tries ≤ sixDone.guesses.length ∧
    (sixDone.guess ['a', 'b']).1.guesses.length = 7 := by
  have h := C9_no_max_tries_gate sixDone ['a', 'b'] (by decide) (by decide) (by decide)
  refine ⟨by decide, ?_⟩
  rw [h.1]
  decide

/-- C10: when the buffer is strictly shorter than the target, `add_char`
followed by `back` restores the state exactly — buffer and every other field
included. -/
theorem C10_edit_roundtrip (s : GameState) (c : Char)
    (h : s.current_guess.length < s.word.length) :
    (s.add_char c).back = s := by
  unfold GameState.add_char
  rw [if_pos h]
  unfold GameState.back
  rw [if_pos (by simp)]
  simp [List.dropLast_concat]

/-- C10 witness: on a fresh state with target "ab", typing 'q' and erasing it
restores the fresh state. -/
theorem C10_edit_roundtrip_witness :
    ((GameState.new "ab".toList []).add_char 'q').back = GameState.new "ab".toList [] :=
  C10_edit_roundtrip (GameState.new "ab".toList []) 'q' (by decide)

end Rustle
